import Mathlib

/-!
Verification of the secrets-in-source scanning engine (fasthog.go / passhog.go).

The development shallowly embeds the Go source:

* `loadRegexes` (fasthog.go:572, passhog.go:78): pattern lines are filtered,
  wrapped in capturing groups, joined with `|`, escape-normalized by
  `shellReplacer`, and compiled.  Compilation by Go's `regexp.Compile` is
  modelled by a recursive-descent parser `compile` over an RE2-like fragment
  (literals, escaped punctuation, `.`, groups, alternation, concatenation,
  `*`, `+`, `?`); strings are modelled as `List Char`.  Matching
  (`MatchString`) is modelled by Brzozowski derivatives plus an unanchored
  substring search.
* `hasExtension`, `mergeExcludeDirs`, the `fs.WalkDir` candidate filter,
  the per-line three-stage protocol of `scanDirectory`, and the
  mutex-protected aggregation of matches and per-file counts.
* `validateDirectory` and the phase ordering of `runFasthog`.
-/

namespace SecretsInSource

/-- Regular-expression abstract syntax for the RE2 fragment used by the
pattern compiler model.  `void` (never matches) arises only from derivatives;
the parser produces the other constructors.  Capturing groups are dropped at
parse time since they do not affect `MatchString`. -/
inductive Regex where
  | void : Regex
  | eps : Regex
  | chr : Char → Regex
  | anyc : Regex
  | alt : Regex → Regex → Regex
  | cat : Regex → Regex → Regex
  | star : Regex → Regex
deriving DecidableEq

/-- Does the regex accept the empty string? -/
def nullable : Regex → Bool
  | .void => false
  | .eps => true
  | .chr _ => false
  | .anyc => false
  | .alt a b => nullable a || nullable b
  | .cat a b => nullable a && nullable b
  | .star _ => true

/-- Brzozowski derivative.  `.` does not match a newline in Go's default
regexp mode, which the `anyc` case reflects. -/
def deriv : Regex → Char → Regex
  | .void, _ => .void
  | .eps, _ => .void
  | .chr c, d => if c = d then .eps else .void
  | .anyc, d => if d = '\n' then .void else .eps
  | .alt a b, d => .alt (deriv a d) (deriv b d)
  | .cat a b, d =>
      if nullable a then .alt (.cat (deriv a d) b) (deriv b d)
      else .cat (deriv a d) b
  | .star r, d => .cat (deriv r d) (.star r)

/-- Does some prefix of `s` match `r`? -/
def prefixMatch (r : Regex) : List Char → Bool
  | [] => nullable r
  | c :: cs => nullable r || prefixMatch (deriv r c) cs

/-- Model of Go `regexp.MatchString`: does any substring of `s` match `r`?
(Unanchored search: some prefix of some suffix matches.) -/
def matchString (r : Regex) : List Char → Bool
  | [] => nullable r
  | c :: cs => prefixMatch r (c :: cs) || matchString r cs

/-- Characters with special meaning in the modelled regexp fragment.  A bare
occurrence of any of these is not a literal; constructs outside the fragment
(counted repetition, classes, anchors) make the model's compile fail. -/
def isMeta (c : Char) : Bool :=
  c = '(' || c = ')' || c = '|' || c = '*' || c = '+' || c = '?' ||
  c = '.' || c = '\\' || c = '[' || c = ']' || c = '{' || c = '}' ||
  c = '^' || c = '$'

mutual

/-- Parse an alternation (`a|b|c`). Fuel-indexed recursive descent. -/
def parseAlt : Nat → List Char → Option (Regex × List Char)
  | 0, _ => none
  | f + 1, cs =>
    match parseCat f cs with
    | some (r, rest) => parseAltRest f r rest
    | none => none

/-- Continue an alternation after its first branch; stops at anything that
is not `|`. -/
def parseAltRest : Nat → Regex → List Char → Option (Regex × List Char)
  | 0, _, _ => none
  | f + 1, acc, cs =>
    match cs with
    | [] => some (acc, [])
    | c :: rest =>
      if c = '|' then
        match parseCat f rest with
        | some (r, rest2) => parseAltRest f (Regex.alt acc r) rest2
        | none => none
      else some (acc, c :: rest)

/-- Parse a concatenation of repeated atoms (possibly empty). -/
def parseCat : Nat → List Char → Option (Regex × List Char)
  | 0, _ => none
  | f + 1, cs => parseCatRest f Regex.eps cs

/-- Concatenation loop; stops at end of input, `)` or `|`. -/
def parseCatRest : Nat → Regex → List Char → Option (Regex × List Char)
  | 0, _, _ => none
  | f + 1, acc, cs =>
    match cs with
    | [] => some (acc, [])
    | c :: rest =>
      if c = ')' ∨ c = '|' then some (acc, c :: rest)
      else
        match parseRep f (c :: rest) with
        | some (r, rest2) => parseCatRest f (Regex.cat acc r) rest2
        | none => none

/-- Parse an atom with an optional `*`, `+` or `?` postfix. -/
def parseRep : Nat → List Char → Option (Regex × List Char)
  | 0, _ => none
  | f + 1, cs =>
    match parseAtom f cs with
    | some (r, rest) =>
      match rest with
      | [] => some (r, [])
      | d :: rest2 =>
        if d = '*' then some (Regex.star r, rest2)
        else if d = '+' then some (Regex.cat r (Regex.star r), rest2)
        else if d = '?' then some (Regex.alt r Regex.eps, rest2)
        else some (r, d :: rest2)
    | none => none

/-- Parse a single atom: group, `.`, escaped punctuation, or literal. -/
def parseAtom : Nat → List Char → Option (Regex × List Char)
  | 0, _ => none
  | f + 1, cs =>
    match cs with
    | [] => none
    | c :: rest =>
      if c = '(' then
        match parseAlt f rest with
        | some (r, rem) =>
          match rem with
          | [] => none
          | d :: rest2 => if d = ')' then some (r, rest2) else none
        | none => none
      else if c = '.' then some (Regex.anyc, rest)
      else if c = '\\' then
        match rest with
        | [] => none
        | d :: rest2 => if d.isAlphanum then none else some (Regex.chr d, rest2)
      else if isMeta c then none
      else some (Regex.chr c, rest)

end

/-- Model of Go `regexp.Compile` on the supported fragment: `some r` models
successful compilation, `none` a compilation error (including constructs
outside the fragment). -/
def compile (p : List Char) : Option Regex :=
  match parseAlt (4 * p.length + 8) p with
  | some (r, []) => some r
  | _ => none

/-- Model of `shellReplacer = strings.NewReplacer("\\\\", "\\", "\\\"", "\"")`
(fasthog.go:567): left-to-right, non-overlapping replacement of a double
backslash by a single backslash and an escaped quote by a quote. -/
def shellReplace : List Char → List Char
  | [] => []
  | [c] => [c]
  | c1 :: c2 :: rest =>
    if c1 = '\\' then
      if c2 = '\\' then '\\' :: shellReplace rest
      else if c2 = '"' then '"' :: shellReplace rest
      else c1 :: shellReplace (c2 :: rest)
    else c1 :: shellReplace (c2 :: rest)

/-- Model of `bytes.Split(b, []byte("\n"))`: split at every separator; the
empty input yields one empty piece. -/
def splitOnChar (sep : Char) : List Char → List (List Char)
  | [] => [[]]
  | c :: cs =>
    match splitOnChar sep cs with
    | [] => [[c]]
    | cur :: rest => if c = sep then [] :: cur :: rest else (c :: cur) :: rest

/-- A pattern line survives filtering unless it is empty or starts with `#`
(fasthog.go:580: `len(line) == 0 || line[0] == '#'`). -/
def isUsableLine (l : List Char) : Bool :=
  !(decide (l = []) || decide (l.head? = some '#'))

/-- The usable pattern lines of a list of pattern sources, in order
(fasthog.go:574-587: iterate over files, split each into lines, filter). -/
def usableLines (sources : List (List Char)) : List (List Char) :=
  sources.foldr (fun src acc => (splitOnChar '\n' src).filter isUsableLine ++ acc) []

/-- One step of the composite-pattern accumulation (fasthog.go:583-586):
append `|` if non-empty so far, then the line wrapped in a capturing group. -/
def appendPattern (acc : List Char) (line : List Char) : List Char :=
  (if acc.length > 0 then acc ++ ['|'] else acc) ++ '(' :: (line ++ [')'])

/-- The raw composite pattern string built from the usable lines. -/
def buildRaw (lines : List (List Char)) : List Char :=
  lines.foldl appendPattern []

/-- Model of `loadRegexes` (fasthog.go:572-596) once the sources have been
read: build the composite, escape-normalize it, and compile it. -/
def loadRegexesModel (sources : List (List Char)) : Option Regex :=
  compile (shellReplace (buildRaw (usableLines sources)))

/-! ## Directory walking, extension filter, and the scanning engine -/

/-- ASCII fragment of Go `strings.ToLower`: map `A`-`Z` to `a`-`z`
(non-ASCII characters are kept as they are). -/
def goToLower (c : Char) : Char :=
  Char.toLower c

/-- Model of `hasExtension` (fasthog.go:599-603): some configured extension is
a suffix of the lower-cased path (`strings.HasSuffix(strings.ToLower(path), ext)`;
note the extension itself is not lower-cased by the code). -/
def hasExtension (path : List Char) (extensions : List (List Char)) : Bool :=
  extensions.any (fun ext => ext.isSuffixOf (path.map goToLower))

/-- Spec-side predicate for claim C2, following the spec's words: the
extension is a case-insensitive suffix of the path (both sides lower-cased). -/
def specCaseInsensitiveSuffix (ext path : List Char) : Bool :=
  (ext.map goToLower).isSuffixOf (path.map goToLower)

/-- `defaultExcludeDirs` (fasthog.go:62-64). -/
def defaultExcludeDirs : List (List Char) :=
  [".git".data, ".github".data, "node_modules".data, "vendor".data,
   ".idea".data, ".vscode".data]

/-- One step of duplicate-avoiding union (`mergeExcludeDirs` loop bodies). -/
def mergeStep (acc : List (List Char)) (d : List Char) : List (List Char) :=
  if d ∈ acc then acc else acc ++ [d]

/-- Model of `mergeExcludeDirs` (fasthog.go:152-177): union of the defaults
and the extra directories, preserving order, avoiding duplicates. -/
def mergeExcludeDirs (extra : List (List Char)) : List (List Char) :=
  if extra = [] then defaultExcludeDirs
  else (defaultExcludeDirs ++ extra).foldl mergeStep []

/-- Model of `strings.Split(path, "/")`. -/
def splitSlash (path : List Char) : List (List Char) :=
  splitOnChar '/' path

/-- Observable interface of a compiled `*regexp.Regexp` as used by the
scanning engine: `MatchString` and `FindString` (which returns the empty
string both when there is no match and when the match is empty). -/
structure GoRegexp where
  matchString : List Char → Bool
  findString : List Char → List Char

/-- The scan inputs of `scanOptions` (fasthog.go:126-141) relevant to the
engine: extension list, extra excluded directories, and the three compiled
matchers. -/
structure ScanOptions where
  Extensions : List (List Char)
  ExcludeDirs : List (List Char)
  ExcludePatterns : GoRegexp
  FastPatterns : GoRegexp
  SlowPatterns : GoRegexp

/-- A detected secret occurrence (`Match`, fasthog.go:82-87). -/
structure Match where
  File : List Char
  Line : Nat
  LineSnippet : List Char
  MatchText : List Char
deriving DecidableEq

/-- The structured scan output (`scanResult`, fasthog.go:144-148), with the
file→count map as an association list. -/
structure ScanResultM where
  Matches : List Match
  MatchFiles : List (List Char × Nat)
  Filenames : List (List Char)

/-- An entry met by `fs.WalkDir`: its path relative to the root, whether it
is a directory, whether visiting it reported an error, and (for files) its
text lines as produced by `bufio.Scanner`. -/
structure FSEntry where
  path : List Char
  isDir : Bool
  walkErr : Bool
  lines : List (List Char)

/-- The walk filter of `scanDirectory` (fasthog.go:192-209): keep entries
that are regular files without walk errors, whose path has an accepted
extension, and none of whose `/`-separated segments is an excluded
directory name. -/
def keepEntry (extensions excludeDirs : List (List Char)) (e : FSEntry) : Bool :=
  if e.walkErr || e.isDir then false
  else if !hasExtension e.path extensions then false
  else !((mergeExcludeDirs excludeDirs).any (fun d => (splitSlash e.path).contains d))

/-- The candidate entries, in walk order. -/
def candidateEntries (entries : List FSEntry) (extensions excludeDirs : List (List Char)) :
    List FSEntry :=
  entries.filter (keepEntry extensions excludeDirs)

/-- The candidate file list (`filenames`, fasthog.go:191-211). -/
def collectFilenames (entries : List FSEntry) (extensions excludeDirs : List (List Char)) :
    List (List Char) :=
  (candidateEntries entries extensions excludeDirs).map (·.path)

/-- UTF-8 byte length of a line, modelling Go `len(line)` on a `string`. -/
def utf8Len (cs : List Char) : Nat :=
  cs.foldl (fun n c => n + c.utf8Size) 0

/-- ASCII fragment of Go `strings.TrimSpace`. -/
def isSpaceGo (c : Char) : Bool :=
  c = ' ' || c = '\t' || c = '\n' || c = '\x0b' || c = '\x0c' || c = '\r'

/-- Model of `strings.TrimSpace` (ASCII whitespace). -/
def goTrimSpace (cs : List Char) : List Char :=
  ((cs.dropWhile isSpaceGo).reverse.dropWhile isSpaceGo).reverse

/-- The per-line protocol of `scanDirectory` (fasthog.go:246-263): skip lines
of byte length ≤ 8; apply the fast matcher; extract with the strict matcher;
veto with the exclude matcher; return the matched text on success. -/
def scanLine (opts : ScanOptions) (line : List Char) : Option (List Char) :=
  if utf8Len line ≤ 8 then none
  else if opts.FastPatterns.matchString line then
    let m := opts.SlowPatterns.findString line
    if m ≠ [] && !opts.ExcludePatterns.matchString line then some m else none
  else none

/-- Which matchers a call to the per-line protocol invoked, and what it
emitted.  Mirrors the nesting and the `&&` short-circuit of the Go code. -/
structure StageTrace where
  fastInvoked : Bool
  slowInvoked : Bool
  excludeInvoked : Bool
  emitted : Option (List Char)
deriving DecidableEq

/-- Instrumented version of `scanLine`, recording which stages ran. -/
def scanLineTrace (opts : ScanOptions) (line : List Char) : StageTrace :=
  if utf8Len line ≤ 8 then ⟨false, false, false, none⟩
  else if opts.FastPatterns.matchString line then
    let m := opts.SlowPatterns.findString line
    if m ≠ [] then
      if opts.ExcludePatterns.matchString line then ⟨true, true, true, none⟩
      else ⟨true, true, true, some m⟩
    else ⟨true, true, false, none⟩
  else ⟨true, false, false, none⟩

/-- Scan the lines of one file, numbering lines from `lineNo`
(fasthog.go:241-265; the counter is incremented before the line is read, so
the first line is line 1). -/
def scanFileFrom (opts : ScanOptions) (path : List Char) (lineNo : Nat) :
    List (List Char) → List Match
  | [] => []
  | line :: rest =>
    match scanLine opts line with
    | some m =>
        ⟨path, lineNo, goTrimSpace line, m⟩ :: scanFileFrom opts path (lineNo + 1) rest
    | none => scanFileFrom opts path (lineNo + 1) rest

/-- Scan one file starting at line 1. -/
def scanFile (opts : ScanOptions) (path : List Char) (lines : List (List Char)) :
    List Match :=
  scanFileFrom opts path 1 lines

/-- Increment a file's entry in the file→count map (`result.MatchFiles[path]++`,
fasthog.go:261; an absent key counts as 0). -/
def mapIncr : List (List Char × Nat) → List Char → List (List Char × Nat)
  | [], k => [(k, 1)]
  | (k', v) :: rest, k =>
    if k' = k then (k', v + 1) :: rest else (k', v) :: mapIncr rest k

/-- Look up a file's count (absent keys read as 0). -/
def mapGet : List (List Char × Nat) → List Char → Nat
  | [], _ => 0
  | (k', v) :: rest, k => if k' = k then v else mapGet rest k

/-- Sum of the values of the file→count map. -/
def sumValues (m : List (List Char × Nat)) : Nat :=
  (m.map (·.2)).sum

/-- One match event as performed under the mutex (fasthog.go:254-262):
append the `Match` record and increment the file's count. -/
def recordMatch (st : List Match × List (List Char × Nat)) (m : Match) :
    List Match × List (List Char × Nat) :=
  (st.1 ++ [m], mapIncr st.2 m.File)

/-- Aggregate a sequence of match events into the match list and the
file→count map.  The Go workers perform these events in a nondeterministic
interleaving; the aggregation lemmas below hold for every event order. -/
def aggregate (events : List Match) : List Match × List (List Char × Nat) :=
  events.foldl recordMatch ([], [])

/-- All match events of a scan, file by file in candidate order (one
serialization of the concurrent workers' events). -/
def scanEvents (opts : ScanOptions) (entries : List FSEntry) : List Match :=
  (candidateEntries entries opts.Extensions opts.ExcludeDirs).foldr
    (fun e acc => scanFile opts e.path e.lines ++ acc) []

/-- Model of `scanDirectory` (fasthog.go:182-271): walk and filter the tree,
scan every candidate file, and aggregate matches and per-file counts. -/
def scanDirectory (opts : ScanOptions) (entries : List FSEntry) : ScanResultM :=
  let filenames := collectFilenames entries opts.Extensions opts.ExcludeDirs
  let st := aggregate (scanEvents opts entries)
  { Matches := st.1, MatchFiles := st.2, Filenames := filenames }

/-- The progress-callback invocations of the dispatch loop
(fasthog.go:219-226): for each candidate, in candidate-list order, the
callback receives the path, the zero-based index, and the total count,
synchronously on the dispatching control flow (so the sequence does not
depend on worker completion order). -/
def progressEvents (filenames : List (List Char)) : List (List Char × Nat × Nat) :=
  filenames.enum.map (fun p => (p.2, p.1, filenames.length))

/-! ## Run pipeline and error handling -/

/-- Result of `os.Stat` on the scan root. -/
inductive StatResult where
  | notFound : StatResult
  | accessErr : StatResult
  | isFile : StatResult
  | isDir : StatResult
deriving DecidableEq

/-- Model of `validateDirectory` (fasthog.go:287-299). -/
def validateDirectory : StatResult → Except (List Char) Unit
  | .notFound => .error "directory does not exist".data
  | .accessErr => .error "cannot access directory".data
  | .isFile => .error "path is not a directory".data
  | .isDir => .ok ()

/-- The observable phases of `runFasthog`. -/
inductive Action where
  | statDir : Action
  | loadPatterns : Action
  | walkDir : Action
  | scanFiles : Action
deriving DecidableEq

/-- The environment a run executes against: the stat result of the root,
the contents of the three stages' pattern sources (`none` models an
unreadable source), and the file tree. -/
structure RunEnv where
  dirStat : StatResult
  excludeSources : Option (List (List Char))
  fastSources : Option (List (List Char))
  strictSources : Option (List (List Char))
  entries : List FSEntry

/-- Length of the longest prefix of `s` matching `r`, if any prefix matches. -/
def prefixLongest (r : Regex) : List Char → Option Nat
  | [] => if nullable r then some 0 else none
  | c :: cs =>
    match prefixLongest (deriv r c) cs with
    | some n => some (n + 1)
    | none => if nullable r then some 0 else none

/-- Model of `FindString`: the match at the leftmost matching position, or
the empty string.  (At that position the model returns the longest match;
Go's regexp uses leftmost-first preference instead — no theorem below
depends on which match text is returned.) -/
def goFindString (r : Regex) : List Char → List Char
  | [] => []
  | c :: cs =>
    match prefixLongest r (c :: cs) with
    | some n => (c :: cs).take n
    | none => goFindString r cs

/-- View a compiled model regex through the `*regexp.Regexp` interface. -/
def toGoRegexp (r : Regex) : GoRegexp :=
  { matchString := matchString r, findString := goFindString r }

/-- Model of `loadRegexes` including the IO error case: an unreadable source
is an error, and so is a failed compilation. -/
def loadRegexesE (sources : Option (List (List Char))) : Except (List Char) Regex :=
  match sources with
  | none => .error "unable to load regexes".data
  | some srcs =>
    match loadRegexesModel srcs with
    | none => .error "failed to compile regex patterns".data
    | some r => .ok r

/-- Model of `loadEffectivePatterns` (fasthog.go:505-563) with no override
files: load exclude, then fast, then slow patterns. -/
def loadEffectivePatternsM (env : RunEnv) : Except (List Char) (Regex × Regex × Regex) :=
  match loadRegexesE env.excludeSources with
  | .error e => .error e
  | .ok ex =>
    match loadRegexesE env.fastSources with
    | .error e => .error e
    | .ok fa =>
      match loadRegexesE env.strictSources with
      | .error e => .error e
      | .ok sl => .ok (ex, fa, sl)

/-- Model of `runFasthog` (fasthog.go:842-947): validate the root directory,
then load and compile the patterns, then walk and scan.  The second
component records which phases ran, in order. -/
def runFasthogM (env : RunEnv) (extensions excludeDirs : List (List Char)) :
    Except (List Char) ScanResultM × List Action :=
  match validateDirectory env.dirStat with
  | .error e => (.error e, [.statDir])
  | .ok () =>
    match loadEffectivePatternsM env with
    | .error e => (.error e, [.statDir, .loadPatterns])
    | .ok (ex, fa, sl) =>
      let opts : ScanOptions :=
        { Extensions := extensions, ExcludeDirs := excludeDirs,
          ExcludePatterns := toGoRegexp ex, FastPatterns := toGoRegexp fa,
          SlowPatterns := toGoRegexp sl }
      (.ok (scanDirectory opts env.entries),
       [.statDir, .loadPatterns, .walkDir, .scanFiles])

section Examples

example : compile [] = some Regex.eps := by decide
example : matchString Regex.eps ['x', 'y'] = true := by decide
example :
    compile ['a', '|', 'b'] =
      some (.alt (.cat .eps (.chr 'a')) (.cat .eps (.chr 'b'))) := by decide
example : (compile ['a', '*']).isSome = true := by decide
example : (compile ['*']).isSome = false := by decide
example : (compile ['(', 'a']).isSome = false := by decide
example :
    loadRegexesModel [['#', 'c', '\n']] = some Regex.eps := by decide
example : hasExtension "TEST.PY".data [".py".data] = true := by decide
example : hasExtension "a.env".data [".ENV".data] = false := by decide
example : splitSlash "a/.git/b.py".data = ["a".data, ".git".data, "b.py".data] := by
  decide
example : (mergeExcludeDirs []).contains ".git".data = true := by decide
example : (mergeExcludeDirs ["build".data]).contains "build".data = true := by decide
example : utf8Len "12345678".data = 8 := by decide
example : goTrimSpace "  a b \t".data = "a b".data := by decide

end Examples

/-! ## Helper lemmas -/

/-- The empty regular expression matches (a prefix of) every string. -/
theorem matchString_eps (s : List Char) : matchString Regex.eps s = true := by
  cases s with
  | nil => rfl
  | cons c cs => simp [matchString, prefixMatch, nullable]

/-- Concrete scan options used by the witnesses: scan `.py` files with a
fast matcher that always fires, a strict matcher returning the whole line,
and an exclude matcher that never fires. -/
def demoOpts : ScanOptions :=
  { Extensions := [".py".data], ExcludeDirs := [],
    ExcludePatterns := { matchString := fun _ => false, findString := fun _ => [] },
    FastPatterns := { matchString := fun _ => true, findString := fun l => l },
    SlowPatterns := { matchString := fun _ => true, findString := fun l => l } }

/-! ## C1 — a stage with zero usable pattern lines -/

/-- Claim C1 as stated is false: with zero usable lines the composite
pattern is the empty string, which Go compiles successfully to a matcher
that matches *every* string (the empty expression matches the empty
substring of any string), not one that matches no string. -/
theorem c1_counterexample :
    usableLines ["# comments only\n".data] = [] ∧
    loadRegexesModel ["# comments only\n".data] = some Regex.eps ∧
    matchString Regex.eps "password = hunter2".data = true := by
  decide

/-- C1 amended: a stage whose sources yield zero usable lines compiles
successfully, and the resulting matcher is the empty expression, which
matches every string (always-matching, not never-matching). -/
theorem c1_amended (sources : List (List Char)) (h : usableLines sources = []) :
    loadRegexesModel sources = some Regex.eps ∧
    ∀ s, matchString Regex.eps s = true := by
  refine ⟨?_, matchString_eps⟩
  unfold loadRegexesModel
  rw [h]
  rfl

/-- Witness for C1: a comment-only source has zero usable lines, compiles,
and the compiled matcher matches every string. -/
theorem c1_amended_witness :
    loadRegexesModel ["# comments only\n".data] = some Regex.eps ∧
    ∀ s, matchString Regex.eps s = true :=
  c1_amended ["# comments only\n".data] (by decide)

/-! ## C7 — lines of byte length at most 8 are skipped unconditionally -/

/-- C7: on a line of length ≤ 8 no match is produced and none of the three
matchers is invoked, regardless of the configured patterns. -/
theorem c7_short_lines_skipped (opts : ScanOptions) (line : List Char)
    (h : utf8Len line ≤ 8) :
    scanLine opts line = none ∧
    scanLineTrace opts line = ⟨false, false, false, none⟩ := by
  simp [scanLine, scanLineTrace, h]

/-- Witness for C7: an 8-byte line that every matcher would accept still
produces nothing, and no matcher runs. -/
theorem c7_witness :
    scanLine demoOpts "PASS=123".data = none ∧
    scanLineTrace demoOpts "PASS=123".data = ⟨false, false, false, none⟩ :=
  c7_short_lines_skipped demoOpts "PASS=123".data (by decide)

/-! ## C8 — progress callback sequence -/

/-- C8: for a candidate list of N files the progress callback fires exactly
N times, in candidate-list order, with the i-th invocation carrying the i-th
path, index i and total N; the indices form exactly the sequence 0..N-1.
The event list is a function of the candidate list alone — the dispatching
loop (fasthog.go:219-226) fires the callback synchronously before starting
each scan, so worker completion order cannot influence it. -/
theorem c8_progress_sequence (filenames : List (List Char)) :
    (progressEvents filenames).length = filenames.length ∧
    (∀ i, (progressEvents filenames).get? i =
       (filenames.get? i).map (fun p => (p, i, filenames.length))) ∧
    (progressEvents filenames).map (fun e => e.2.1) = List.range filenames.length := by
  refine ⟨by simp [progressEvents], fun i => ?_, ?_⟩
  · simp [progressEvents, List.get?_map, List.enum_get?, Option.map_map]
    rfl
  · show (filenames.enum.map _).map _ = _
    rw [List.map_map]
    exact List.enum_map_fst filenames

/-! ## C9 — root validation precedes everything else -/

/-- C9: when the scan root is missing or is not a directory, the run returns
the validation error and performs only the stat: the phase trace contains no
pattern loading/compilation, no walking and no scanning. -/
theorem c9_validation_first (env : RunEnv) (extensions excludeDirs : List (List Char))
    (h : env.dirStat = StatResult.notFound ∨ env.dirStat = StatResult.isFile) :
    (∃ e, runFasthogM env extensions excludeDirs = (.error e, [Action.statDir])) ∧
    Action.loadPatterns ∉ (runFasthogM env extensions excludeDirs).2 ∧
    Action.walkDir ∉ (runFasthogM env extensions excludeDirs).2 ∧
    Action.scanFiles ∉ (runFasthogM env extensions excludeDirs).2 := by
  rcases h with h | h <;>
    simp [runFasthogM, validateDirectory, h]

/-- Witness for C9: a missing root directory fails before any other phase. -/
theorem c9_witness :
    (∃ e, runFasthogM ⟨.notFound, none, none, none, []⟩ [] [] = (.error e, [Action.statDir])) ∧
    Action.loadPatterns ∉ (runFasthogM ⟨.notFound, none, none, none, []⟩ [] []).2 ∧
    Action.walkDir ∉ (runFasthogM ⟨.notFound, none, none, none, []⟩ [] []).2 ∧
    Action.scanFiles ∉ (runFasthogM ⟨.notFound, none, none, none, []⟩ [] []).2 :=
  c9_validation_first ⟨.notFound, none, none, none, []⟩ [] [] (Or.inl rfl)

/-! ## C2 — the extension filter -/

theorem toNat_goToLower (c : Char) :
    (goToLower c).toNat =
      if c.toNat ≥ 65 ∧ c.toNat ≤ 90 then c.toNat + 32 else c.toNat := by
  unfold goToLower Char.toLower
  split
  · next h =>
    rw [if_pos h, Char.ofNat, dif_pos (Or.inl (by omega))]
    rfl
  · next h => rw [if_neg h]

theorem goToLower_eq_self (c : Char) (h : ¬(c.toNat ≥ 65 ∧ c.toNat ≤ 90)) :
    goToLower c = c := by
  simp only [goToLower, Char.toLower]
  exact if_neg h

theorem goToLower_idem (c : Char) : goToLower (goToLower c) = goToLower c := by
  by_cases h : c.toNat ≥ 65 ∧ c.toNat ≤ 90
  · refine goToLower_eq_self _ ?_
    rw [toNat_goToLower c, if_pos h]
    omega
  · rw [goToLower_eq_self c h]
    exact goToLower_eq_self c h

/-- Claim C2 as stated is false: `hasExtension` lower-cases the path but not
the configured extension, so an upper-case extension such as `.ENV` never
matches, although it is a case-insensitive suffix of `a.env`. -/
theorem c2_counterexample :
    hasExtension "a.env".data [".ENV".data] = false ∧
    specCaseInsensitiveSuffix ".ENV".data "a.env".data = true := by
  decide

/-- C2 amended: a path passes the extension filter iff some configured
extension is an exact suffix of the lower-cased path — acceptance is
insensitive to the letter case of the path, but sensitive to the letter
case of the configured extension. -/
theorem c2_amended (path : List Char) (extensions : List (List Char)) :
    (hasExtension path extensions = true ↔
       ∃ ext ∈ extensions, ext.isSuffixOf (path.map goToLower) = true) ∧
    hasExtension (path.map goToLower) extensions = hasExtension path extensions := by
  constructor
  · simp [hasExtension, List.any_eq_true]
  · unfold hasExtension
    rw [List.map_map]
    have : goToLower ∘ goToLower = goToLower := funext goToLower_idem
    rw [this]

/-- Witness for C2 (amended): `TEST.PY` is accepted for the extension `.py`,
and lower-casing the path does not change acceptance. -/
theorem c2_amended_witness :
    (hasExtension "TEST.PY".data [".py".data] = true ↔
       ∃ ext ∈ [".py".data], ext.isSuffixOf ("TEST.PY".data.map goToLower) = true) ∧
    hasExtension ("TEST.PY".data.map goToLower) [".py".data] =
      hasExtension "TEST.PY".data [".py".data] :=
  c2_amended "TEST.PY".data [".py".data]

/-! ## C3 — the three-stage per-line protocol -/

/-- On a line that passed the length gate, `scanLine` emits the strict
matcher's extraction exactly when all three stage conditions hold. -/
theorem scanLine_char (opts : ScanOptions) (line : List Char)
    (h : ¬ utf8Len line ≤ 8) :
    scanLine opts line =
      if opts.FastPatterns.matchString line = true ∧
         opts.SlowPatterns.findString line ≠ [] ∧
         opts.ExcludePatterns.matchString line = false
      then some (opts.SlowPatterns.findString line) else none := by
  simp only [scanLine, if_neg h]
  by_cases hf : opts.FastPatterns.matchString line = true
  · by_cases hx : opts.SlowPatterns.findString line = []
    · simp [hf, hx]
    · by_cases he : opts.ExcludePatterns.matchString line = true
      · simp [hf, hx, he]
      · simp_all
  · simp_all

/-- Matches produced for one file are exactly the lines on which `scanLine`
emits, with 1-based line numbers offset by the starting counter. -/
theorem mem_scanFileFrom (opts : ScanOptions) (path : List Char) (k : Nat)
    (lines : List (List Char)) (m : Match) :
    m ∈ scanFileFrom opts path k lines ↔
      ∃ i, ∃ line, lines.get? i = some line ∧ ∃ mt,
        scanLine opts line = some mt ∧
        m = ⟨path, k + i, goTrimSpace line, mt⟩ := by
  induction lines generalizing k with
  | nil => simp [scanFileFrom]
  | cons line rest ih =>
    constructor
    · intro hm
      unfold scanFileFrom at hm
      rcases hscan : scanLine opts line with _ | mt0
      · rw [hscan] at hm
        rcases (ih (k + 1)).mp hm with ⟨i, l, hi, mt, hs, hm'⟩
        refine ⟨i + 1, l, by simpa using hi, mt, hs, ?_⟩
        rw [hm']
        simp [Nat.add_assoc, Nat.add_comm 1 i]
      · rw [hscan] at hm
        rcases List.mem_cons.mp hm with hm | hm
        · exact ⟨0, line, rfl, mt0, hscan, by simpa using hm⟩
        · rcases (ih (k + 1)).mp hm with ⟨i, l, hi, mt, hs, hm'⟩
          refine ⟨i + 1, l, by simpa using hi, mt, hs, ?_⟩
          rw [hm']
          simp [Nat.add_assoc, Nat.add_comm 1 i]
    · rintro ⟨i, l, hi, mt, hs, hm⟩
      unfold scanFileFrom
      cases i with
      | zero =>
        have hll : line = l := by simpa using hi
        subst hll
        rw [hs]
        apply List.mem_cons.mpr
        left
        rw [hm]
        simp
      | succ j =>
        have hm' : m ∈ scanFileFrom opts path (k + 1) rest := by
          refine (ih (k + 1)).mpr ⟨j, l, by simpa using hi, mt, hs, ?_⟩
          rw [hm]
          simp [Nat.add_assoc, Nat.add_comm 1 j]
        rcases hscan : scanLine opts line with _ | mt0
        · exact hm'
        · exact List.mem_cons_of_mem _ hm'

/-- C3: for every scanned line (one that passed the length gate), a `Match`
is recorded at that line iff the fast matcher matches, the strict matcher
extracts a non-empty substring, and the exclude matcher does not match the
full line; and each later stage runs only when all earlier stages passed. -/
theorem c3_protocol (opts : ScanOptions) (path : List Char) (lines : List (List Char))
    (n : Nat) (line : List Char) (h1 : 1 ≤ n) (hn : lines.get? (n - 1) = some line)
    (hlen : 8 < utf8Len line) :
    ((∃ mt, Match.mk path n (goTrimSpace line) mt ∈ scanFile opts path lines) ↔
       (opts.FastPatterns.matchString line = true ∧
        opts.SlowPatterns.findString line ≠ [] ∧
        opts.ExcludePatterns.matchString line = false)) ∧
    ((scanLineTrace opts line).slowInvoked = true →
       (scanLineTrace opts line).fastInvoked = true ∧
       opts.FastPatterns.matchString line = true) ∧
    ((scanLineTrace opts line).excludeInvoked = true →
       opts.FastPatterns.matchString line = true ∧
       opts.SlowPatterns.findString line ≠ []) ∧
    (scanLineTrace opts line).emitted = scanLine opts line := by
  have hnot : ¬ utf8Len line ≤ 8 := by omega
  refine ⟨?_, ?_, ?_, ?_⟩
  · constructor
    · rintro ⟨mt, hm⟩
      rcases (mem_scanFileFrom opts path 1 lines _).mp hm with ⟨i, l, hi, mt', hs, heq⟩
      have hni : n = 1 + i := congrArg Match.Line heq
      have hl : l = line := by
        have hin : i = n - 1 := by omega
        rw [hin] at hi
        exact (Option.some_injective _ (hn.symm.trans hi)).symm
      rw [hl] at hs
      rw [scanLine_char opts line hnot] at hs
      by_contra hcond
      rw [if_neg hcond] at hs
      exact Option.noConfusion hs
    · rintro ⟨hf, hs, he⟩
      refine ⟨opts.SlowPatterns.findString line, ?_⟩
      apply (mem_scanFileFrom opts path 1 lines _).mpr
      refine ⟨n - 1, line, hn, opts.SlowPatterns.findString line, ?_, ?_⟩
      · rw [scanLine_char opts line hnot, if_pos ⟨hf, hs, he⟩]
      · have hsum : 1 + (n - 1) = n := by omega
        rw [hsum]
  · simp only [scanLineTrace, if_neg hnot]
    by_cases hf : opts.FastPatterns.matchString line = true
    · simp only [if_pos hf]
      intro _
      refine ⟨?_, hf⟩
      split
      · split <;> rfl
      · rfl
    · simp [hf]
  · simp only [scanLineTrace, if_neg hnot]
    by_cases hf : opts.FastPatterns.matchString line = true
    · simp only [if_pos hf]
      by_cases hx : opts.SlowPatterns.findString line ≠ []
      · simp only [if_pos hx]
        split <;> (intro _; exact ⟨hf, hx⟩)
      · simp only [if_neg hx]
        intro h
        exact absurd h (by simp)
    · simp [hf]
  · simp only [scanLineTrace, scanLine, if_neg hnot]
    by_cases hf : opts.FastPatterns.matchString line = true
    · simp only [if_pos hf]
      by_cases hx : opts.SlowPatterns.findString line = []
      · simp [hx]
      · by_cases he : opts.ExcludePatterns.matchString line = true
        · simp [hx, he]
        · simp [hx, he]
    · simp [hf]

/-- Witness for C3: a single qualifying line yields a recorded match, and
the recorded trace shows all three stages ran. -/
theorem c3_witness :
    ((∃ mt, Match.mk "cfg.py".data 1 (goTrimSpace "password = hunter2".data) mt ∈
        scanFile demoOpts "cfg.py".data ["password = hunter2".data]) ↔
       (demoOpts.FastPatterns.matchString "password = hunter2".data = true ∧
        demoOpts.SlowPatterns.findString "password = hunter2".data ≠ [] ∧
        demoOpts.ExcludePatterns.matchString "password = hunter2".data = false)) ∧
    ((scanLineTrace demoOpts "password = hunter2".data).slowInvoked = true →
       (scanLineTrace demoOpts "password = hunter2".data).fastInvoked = true ∧
       demoOpts.FastPatterns.matchString "password = hunter2".data = true) ∧
    ((scanLineTrace demoOpts "password = hunter2".data).excludeInvoked = true →
       demoOpts.FastPatterns.matchString "password = hunter2".data = true ∧
       demoOpts.SlowPatterns.findString "password = hunter2".data ≠ []) ∧
    (scanLineTrace demoOpts "password = hunter2".data).emitted =
      scanLine demoOpts "password = hunter2".data :=
  c3_protocol demoOpts "cfg.py".data ["password = hunter2".data] 1
    "password = hunter2".data (by decide) (by decide) (by decide)

/-! ## C4 — the file→count map invariant -/

theorem mapGet_mapIncr (mm : List (List Char × Nat)) (k q : List Char) :
    mapGet (mapIncr mm k) q = mapGet mm q + (if q = k then 1 else 0) := by
  induction mm with
  | nil =>
    simp only [mapIncr, mapGet]
    by_cases h : q = k
    · subst h; simp
    · rw [if_neg (fun hk : k = q => h hk.symm), if_neg h]
  | cons p rest ih =>
    obtain ⟨k', v⟩ := p
    simp only [mapIncr]
    by_cases h : k' = k
    · subst h
      simp only [if_pos rfl, mapGet]
      by_cases hq : k' = q
      · subst hq
        simp
      · rw [if_neg hq, if_neg hq, if_neg (fun hk : q = k' => hq hk.symm)]
        omega
    · rw [if_neg h]
      simp only [mapGet]
      by_cases hq : k' = q
      · subst hq
        rw [if_pos rfl, if_pos rfl, if_neg (fun hk : k' = k => h hk)]
        omega
      · rw [if_neg hq, if_neg hq]
        exact ih

theorem sumValues_mapIncr (mm : List (List Char × Nat)) (k : List Char) :
    sumValues (mapIncr mm k) = sumValues mm + 1 := by
  induction mm with
  | nil => simp [mapIncr, sumValues]
  | cons p rest ih =>
    obtain ⟨k', v⟩ := p
    simp only [mapIncr]
    by_cases h : k' = k
    · subst h
      simp [sumValues]
      omega
    · rw [if_neg h]
      simp [sumValues] at ih ⊢
      omega

theorem aggregate_fst_general (events : List Match) (acc : List Match)
    (mm : List (List Char × Nat)) :
    (events.foldl recordMatch (acc, mm)).1 = acc ++ events := by
  induction events generalizing acc mm with
  | nil => simp
  | cons e es ih =>
    simp only [List.foldl_cons, recordMatch]
    rw [ih]
    simp

theorem aggregate_snd_general (events : List Match) (acc : List Match)
    (mm : List (List Char × Nat)) :
    (events.foldl recordMatch (acc, mm)).2 =
      events.foldl (fun m e => mapIncr m e.File) mm := by
  induction events generalizing acc mm with
  | nil => rfl
  | cons e es ih =>
    simp only [List.foldl_cons, recordMatch]
    exact ih _ _

theorem mapGet_countFold (events : List Match) (mm : List (List Char × Nat))
    (q : List Char) :
    mapGet (events.foldl (fun m e => mapIncr m e.File) mm) q =
      mapGet mm q + events.countP (fun e => decide (e.File = q)) := by
  induction events generalizing mm with
  | nil => simp
  | cons e es ih =>
    simp only [List.foldl_cons, List.countP_cons]
    rw [ih, mapGet_mapIncr]
    by_cases h : e.File = q
    · subst h; simp
      omega
    · rw [if_neg (fun hq => h hq.symm)]
      simp [h]

theorem sumValues_countFold (events : List Match) (mm : List (List Char × Nat)) :
    sumValues (events.foldl (fun m e => mapIncr m e.File) mm) =
      sumValues mm + events.length := by
  induction events generalizing mm with
  | nil => simp
  | cons e es ih =>
    simp only [List.foldl_cons, List.length_cons]
    rw [ih, sumValues_mapIncr]
    omega

/-- C4: in the finalized scan result, each file's stored count equals the
number of `Match` records bearing that file, and the summed counts equal the
total number of matches.  The two aggregation lemmas above hold for an
arbitrary order of match events, so the invariant is independent of how the
concurrent workers' mutex-protected updates interleave. -/
theorem c4_count_invariant (opts : ScanOptions) (entries : List FSEntry) :
    (∀ file, mapGet (scanDirectory opts entries).MatchFiles file =
       (scanDirectory opts entries).Matches.countP (fun m => decide (m.File = file))) ∧
    sumValues (scanDirectory opts entries).MatchFiles =
      (scanDirectory opts entries).Matches.length := by
  have hfst : (scanDirectory opts entries).Matches = scanEvents opts entries := by
    simp only [scanDirectory, aggregate]
    exact aggregate_fst_general _ [] []
  have hsnd : (scanDirectory opts entries).MatchFiles =
      (scanEvents opts entries).foldl (fun m e => mapIncr m e.File) [] := by
    simp only [scanDirectory, aggregate]
    exact aggregate_snd_general _ [] []
  constructor
  · intro file
    rw [hfst, hsnd, mapGet_countFold]
    simp [mapGet]
  · rw [hfst, hsnd, sumValues_countFold]
    simp [sumValues]

/-! ## C6 and C10 — directory-name exclusion -/

/-- A path one of whose `/`-separated segments is an excluded name never
passes the walk filter. -/
theorem keepEntry_excluded (extensions excludeDirs : List (List Char)) (e : FSEntry)
    (d : List Char) (hd : d ∈ mergeExcludeDirs excludeDirs)
    (hseg : d ∈ splitSlash e.path) :
    keepEntry extensions excludeDirs e = false := by
  unfold keepEntry
  by_cases h1 : e.walkErr || e.isDir
  · simp [h1]
  · by_cases h2 : !hasExtension e.path extensions
    · simp [h1, h2]
    · simp only [h1, h2, if_false, Bool.not_eq_true']
      have hany : (mergeExcludeDirs excludeDirs).any
          (fun x => (splitSlash e.path).contains x) = true :=
        List.any_eq_true.mpr ⟨d, hd, List.elem_iff.mpr hseg⟩
      simp only [hany]
      rfl

/-- Excluded paths are not candidates. -/
theorem excluded_not_candidate (entries : List FSEntry)
    (extensions excludeDirs : List (List Char)) (path d : List Char)
    (hd : d ∈ mergeExcludeDirs excludeDirs) (hseg : d ∈ splitSlash path) :
    path ∉ collectFilenames entries extensions excludeDirs := by
  intro hmem
  unfold collectFilenames candidateEntries at hmem
  rcases List.mem_map.mp hmem with ⟨e, he, hpath⟩
  rcases List.mem_filter.mp he with ⟨_, hkeep⟩
  subst hpath
  rw [keepEntry_excluded extensions excludeDirs e d hd hseg] at hkeep
  exact Bool.false_ne_true hkeep

/-- Every match of one file's scan bears that file's path. -/
theorem scanFileFrom_file (opts : ScanOptions) (path : List Char) (k : Nat)
    (lines : List (List Char)) (m : Match) (h : m ∈ scanFileFrom opts path k lines) :
    m.File = path := by
  rcases (mem_scanFileFrom opts path k lines m).mp h with ⟨_, _, _, _, _, hm⟩
  rw [hm]

/-- A match of the scan comes from some candidate entry's file. -/
theorem mem_scanEvents (opts : ScanOptions) (entries : List FSEntry) (m : Match) :
    m ∈ scanEvents opts entries ↔
      ∃ e ∈ candidateEntries entries opts.Extensions opts.ExcludeDirs,
        m ∈ scanFile opts e.path e.lines := by
  unfold scanEvents
  induction candidateEntries entries opts.Extensions opts.ExcludeDirs with
  | nil => simp
  | cons e es ih =>
    simp only [List.foldr_cons, List.mem_append, List.mem_cons]
    rw [ih]
    constructor
    · rintro (h | ⟨e', he', hm⟩)
      · exact ⟨e, Or.inl rfl, h⟩
      · exact ⟨e', Or.inr he', hm⟩
    · rintro ⟨e', he' | he', hm⟩
      · subst he'
        exact Or.inl hm
      · exact Or.inr ⟨e', he', hm⟩

/-- The matches of a finalized scan all bear candidate file paths. -/
theorem match_file_is_candidate (opts : ScanOptions) (entries : List FSEntry)
    (m : Match) (h : m ∈ (scanDirectory opts entries).Matches) :
    m.File ∈ (scanDirectory opts entries).Filenames := by
  have hfst : (scanDirectory opts entries).Matches = scanEvents opts entries := by
    simp only [scanDirectory, aggregate]
    exact aggregate_fst_general _ [] []
  rw [hfst] at h
  rcases (mem_scanEvents opts entries m).mp h with ⟨e, he, hm⟩
  have : m.File = e.path := scanFileFrom_file opts e.path 1 e.lines m hm
  rw [this]
  exact List.mem_map.mpr ⟨e, he, rfl⟩

/-- C6: a file whose path contains, at any depth, a segment equal to an
excluded directory name is never yielded as a candidate and produces zero
matches, even when its path ends with an accepted extension. -/
theorem c6_excluded_dirs (opts : ScanOptions) (entries : List FSEntry)
    (path d : List Char) (hd : d ∈ mergeExcludeDirs opts.ExcludeDirs)
    (hseg : d ∈ splitSlash path) :
    path ∉ (scanDirectory opts entries).Filenames ∧
    ∀ m ∈ (scanDirectory opts entries).Matches, m.File ≠ path := by
  have hnot : path ∉ collectFilenames entries opts.Extensions opts.ExcludeDirs :=
    excluded_not_candidate entries opts.Extensions opts.ExcludeDirs path d hd hseg
  constructor
  · exact hnot
  · intro m hm hfile
    apply hnot
    rw [← hfile]
    exact match_file_is_candidate opts entries m hm

/-- Witness for C6, the spec's scenario: a tree containing
`a/.git/secret.py` with a secret line, accepted extension `.py`, excluded
directory `.git` (a default), yields neither a candidate nor a match for
that path. -/
theorem c6_witness :
    "a/.git/secret.py".data ∉
      (scanDirectory demoOpts
        [⟨"a/.git/secret.py".data, false, false, ["PASSWORD = hunter2".data]⟩]).Filenames ∧
    ∀ m ∈ (scanDirectory demoOpts
        [⟨"a/.git/secret.py".data, false, false, ["PASSWORD = hunter2".data]⟩]).Matches,
      m.File ≠ "a/.git/secret.py".data :=
  c6_excluded_dirs demoOpts
    [⟨"a/.git/secret.py".data, false, false, ["PASSWORD = hunter2".data]⟩]
    "a/.git/secret.py".data ".git".data (by decide) (by decide)

/-- C10: the segment comparison includes the final component, so a regular
file whose own name equals an excluded directory name is never yielded as a
candidate, whatever the accepted extensions are. -/
theorem c10_filename_equal_excluded (entries : List FSEntry)
    (extensions excludeDirs : List (List Char)) (path d : List Char)
    (hlast : (splitSlash path).getLast? = some d)
    (hd : d ∈ mergeExcludeDirs excludeDirs) :
    path ∉ collectFilenames entries extensions excludeDirs :=
  excluded_not_candidate entries extensions excludeDirs path d hd
    (List.mem_of_mem_getLast? hlast)

/-- Witness for C10: a regular file literally named `.git`, with `.git`
among the accepted extensions, still yields no candidate. -/
theorem c10_witness :
    ".git".data ∉ collectFilenames [⟨".git".data, false, false, []⟩] [".git".data] [] :=
  c10_filename_equal_excluded [⟨".git".data, false, false, []⟩] [".git".data] []
    ".git".data ".git".data (by decide) (by decide)

/-! ## C5 — parser lemmas: fuel monotonicity -/

theorem parseAltRest_nil (f : Nat) (acc : Regex) (hf : 0 < f) :
    parseAltRest f acc [] = some (acc, []) := by
  cases f with
  | zero => omega
  | succ f => simp [parseAltRest]

theorem parseAltRest_stop (f : Nat) (acc : Regex) (c : Char) (cs : List Char)
    (hf : 0 < f) (hc : c ≠ '|') :
    parseAltRest f acc (c :: cs) = some (acc, c :: cs) := by
  cases f with
  | zero => omega
  | succ f => simp [parseAltRest, hc]

theorem parseCatRest_nil (f : Nat) (acc : Regex) (hf : 0 < f) :
    parseCatRest f acc [] = some (acc, []) := by
  cases f with
  | zero => omega
  | succ f => simp [parseCatRest]

theorem parseCatRest_stop (f : Nat) (acc : Regex) (c : Char) (cs : List Char)
    (hf : 0 < f) (hc : c = ')' ∨ c = '|') :
    parseCatRest f acc (c :: cs) = some (acc, c :: cs) := by
  cases f with
  | zero => omega
  | succ f => simp [parseCatRest, hc]

theorem parseAltRest_nil_inv (f : Nat) (acc r : Regex) (rem : List Char)
    (h : parseAltRest f acc [] = some (r, rem)) : r = acc ∧ rem = [] := by
  cases f with
  | zero => simp [parseAltRest] at h
  | succ f =>
    simp only [parseAltRest, Option.some.injEq, Prod.mk.injEq] at h
    exact ⟨h.1.symm, h.2.symm⟩

theorem parseCatRest_nil_inv (f : Nat) (acc r : Regex) (rem : List Char)
    (h : parseCatRest f acc [] = some (r, rem)) : r = acc ∧ rem = [] := by
  cases f with
  | zero => simp [parseCatRest] at h
  | succ f =>
    simp only [parseCatRest, Option.some.injEq, Prod.mk.injEq] at h
    exact ⟨h.1.symm, h.2.symm⟩

/-- Parsing succeeds at any larger fuel with the same result. -/
theorem parseMono (f : Nat) :
    (∀ cs v, parseAlt f cs = some v → parseAlt (f + 1) cs = some v) ∧
    (∀ acc cs v, parseAltRest f acc cs = some v → parseAltRest (f + 1) acc cs = some v) ∧
    (∀ cs v, parseCat f cs = some v → parseCat (f + 1) cs = some v) ∧
    (∀ acc cs v, parseCatRest f acc cs = some v → parseCatRest (f + 1) acc cs = some v) ∧
    (∀ cs v, parseRep f cs = some v → parseRep (f + 1) cs = some v) ∧
    (∀ cs v, parseAtom f cs = some v → parseAtom (f + 1) cs = some v) := by
  induction f with
  | zero =>
    refine ⟨fun cs v h => ?_, fun acc cs v h => ?_, fun cs v h => ?_,
            fun acc cs v h => ?_, fun cs v h => ?_, fun cs v h => ?_⟩ <;>
      simp [parseAlt, parseAltRest, parseCat, parseCatRest, parseRep, parseAtom] at h
  | succ f ih =>
    obtain ⟨ihA, ihAR, ihC, ihCR, ihR, ihAt⟩ := ih
    refine ⟨fun cs v h => ?_, fun acc cs v h => ?_, fun cs v h => ?_,
            fun acc cs v h => ?_, fun cs v h => ?_, fun cs v h => ?_⟩
    · simp only [parseAlt] at h ⊢
      cases hpc : parseCat f cs with
      | none => rw [hpc] at h; exact absurd h (by simp)
      | some v0 =>
        obtain ⟨r0, rest0⟩ := v0
        rw [hpc] at h
        rw [ihC _ _ hpc]
        exact ihAR _ _ _ h
    · simp only [parseAltRest] at h ⊢
      cases cs with
      | nil => exact h
      | cons c rest =>
        by_cases hc : c = '|'
        · simp only [if_pos hc] at h ⊢
          cases hpc : parseCat f rest with
          | none => rw [hpc] at h; exact absurd h (by simp)
          | some v0 =>
            obtain ⟨r0, rest0⟩ := v0
            rw [hpc] at h
            rw [ihC _ _ hpc]
            exact ihAR _ _ _ h
        · simp only [if_neg hc] at h ⊢
          exact h
    · simp only [parseCat] at h ⊢
      exact ihCR _ _ _ h
    · simp only [parseCatRest] at h ⊢
      cases cs with
      | nil => exact h
      | cons c rest =>
        by_cases hc : c = ')' ∨ c = '|'
        · simp only [if_pos hc] at h ⊢
          exact h
        · simp only [if_neg hc] at h ⊢
          cases hpr : parseRep f (c :: rest) with
          | none => rw [hpr] at h; exact absurd h (by simp)
          | some v0 =>
            obtain ⟨r0, rest0⟩ := v0
            rw [hpr] at h
            rw [ihR _ _ hpr]
            exact ihCR _ _ _ h
    · simp only [parseRep] at h ⊢
      cases hpa : parseAtom f cs with
      | none => rw [hpa] at h; exact absurd h (by simp)
      | some v0 =>
        obtain ⟨r0, rest0⟩ := v0
        rw [hpa] at h
        rw [ihAt _ _ hpa]
        exact h
    · simp only [parseAtom] at h ⊢
      cases cs with
      | nil => exact h
      | cons c rest =>
        by_cases hc : c = '('
        · simp only [if_pos hc] at h ⊢
          cases hpa : parseAlt f rest with
          | none => rw [hpa] at h; exact absurd h (by simp)
          | some v0 =>
            obtain ⟨r0, rem0⟩ := v0
            rw [hpa] at h
            rw [ihA _ _ hpa]
            exact h
        · simp only [if_neg hc] at h ⊢
          exact h

theorem parseAlt_mono_le {f g : Nat} (hle : f ≤ g) {cs : List Char}
    {v : Regex × List Char} (h : parseAlt f cs = some v) : parseAlt g cs = some v := by
  induction hle with
  | refl => exact h
  | step _ ih => exact (parseMono _).1 _ _ ih

/-! ## C5 — parser lemmas: extension by a closing delimiter

If a parse succeeds on `cs`, it succeeds unchanged on `cs ++ t` provided the
appended text cannot interact with it: either the original parse already
stopped at a remainder character, or the appended text starts with `)`. -/

/-- Appending `t` is harmless: the original remainder is non-empty (the
parser already stopped at its first character), or `t` is empty, or `t`
starts with `)`, on which every parser level stops. -/
def extOk (rem t : List Char) : Prop :=
  rem ≠ [] ∨ t = [] ∨ t.head? = some ')'

theorem parseExt (f : Nat) :
    (∀ cs r rem t, parseAlt f cs = some (r, rem) → extOk rem t →
       parseAlt f (cs ++ t) = some (r, rem ++ t)) ∧
    (∀ acc cs r rem t, parseAltRest f acc cs = some (r, rem) → extOk rem t →
       parseAltRest f acc (cs ++ t) = some (r, rem ++ t)) ∧
    (∀ cs r rem t, parseCat f cs = some (r, rem) → extOk rem t →
       parseCat f (cs ++ t) = some (r, rem ++ t)) ∧
    (∀ acc cs r rem t, parseCatRest f acc cs = some (r, rem) → extOk rem t →
       parseCatRest f acc (cs ++ t) = some (r, rem ++ t)) ∧
    (∀ cs r rem t, parseRep f cs = some (r, rem) → extOk rem t →
       parseRep f (cs ++ t) = some (r, rem ++ t)) ∧
    (∀ cs r rem t, parseAtom f cs = some (r, rem) → extOk rem t →
       parseAtom f (cs ++ t) = some (r, rem ++ t)) := by
  induction f with
  | zero =>
    refine ⟨fun cs r rem t h _ => ?_, fun acc cs r rem t h _ => ?_,
            fun cs r rem t h _ => ?_, fun acc cs r rem t h _ => ?_,
            fun cs r rem t h _ => ?_, fun cs r rem t h _ => ?_⟩ <;>
      simp [parseAlt, parseAltRest, parseCat, parseCatRest, parseRep, parseAtom] at h
  | succ f ih =>
    obtain ⟨ihA, ihAR, ihC, ihCR, ihR, ihAt⟩ := ih
    have hstop : ∀ rem t : List Char, rem = [] → extOk rem t →
        t = [] ∨ t.head? = some ')' := by
      rintro rem t rfl (h | h | h)
      · exact absurd rfl h
      · exact Or.inl h
      · exact Or.inr h
    refine ⟨fun cs r rem t h hok => ?_, fun acc cs r rem t h hok => ?_,
            fun cs r rem t h hok => ?_, fun acc cs r rem t h hok => ?_,
            fun cs r rem t h hok => ?_, fun cs r rem t h hok => ?_⟩
    · -- parseAlt
      simp only [parseAlt] at h ⊢
      cases hpc : parseCat f cs with
      | none => rw [hpc] at h; exact absurd h (by simp)
      | some v0 =>
        obtain ⟨r0, rest0⟩ := v0
        rw [hpc] at h
        have hok0 : extOk rest0 t := by
          by_cases hr0 : rest0 = []
          · subst hr0
            obtain ⟨_, hrem⟩ := parseAltRest_nil_inv f r0 r rem h
            subst hrem
            exact hok
          · exact Or.inl hr0
        rw [ihC _ _ _ _ hpc hok0]
        exact ihAR _ _ _ _ _ h hok
    · -- parseAltRest
      cases cs with
      | nil =>
        simp only [parseAltRest, Option.some.injEq, Prod.mk.injEq] at h
        obtain ⟨hr, hrem⟩ := h
        subst hr
        have hrem' : rem = [] := hrem.symm
        subst hrem'
        simp only [List.nil_append]
        rcases hstop [] t rfl hok with ht | ht
        · subst ht
          exact parseAltRest_nil _ _ (by omega)
        · cases t with
          | nil => simp at ht
          | cons c t' =>
            have hc : c = ')' := by simpa using ht
            subst hc
            exact parseAltRest_stop _ _ _ _ (by omega) (by decide)
      | cons c rest =>
        by_cases hc : c = '|'
        · simp only [List.cons_append, parseAltRest, if_pos hc] at h ⊢
          cases hpc : parseCat f rest with
          | none => rw [hpc] at h; exact absurd h (by simp)
          | some v0 =>
            obtain ⟨r0, rest0⟩ := v0
            rw [hpc] at h
            have hok0 : extOk rest0 t := by
              by_cases hr0 : rest0 = []
              · subst hr0
                obtain ⟨_, hrem⟩ := parseAltRest_nil_inv f (Regex.alt acc r0) r rem h
                subst hrem
                exact hok
              · exact Or.inl hr0
            rw [ihC _ _ _ _ hpc hok0]
            exact ihAR _ _ _ _ _ h hok
        · simp only [List.cons_append, parseAltRest, if_neg hc,
            Option.some.injEq, Prod.mk.injEq] at h ⊢
          obtain ⟨hr, hrem⟩ := h
          subst hr
          rw [← hrem]
          simp
    · -- parseCat
      simp only [parseCat] at h ⊢
      exact ihCR _ _ _ _ _ h hok
    · -- parseCatRest
      cases cs with
      | nil =>
        simp only [parseCatRest, Option.some.injEq, Prod.mk.injEq] at h
        obtain ⟨hr, hrem⟩ := h
        subst hr
        have hrem' : rem = [] := hrem.symm
        subst hrem'
        simp only [List.nil_append]
        rcases hstop [] t rfl hok with ht | ht
        · subst ht
          exact parseCatRest_nil _ _ (by omega)
        · cases t with
          | nil => simp at ht
          | cons c t' =>
            have hc : c = ')' := by simpa using ht
            subst hc
            exact parseCatRest_stop _ _ _ _ (by omega) (Or.inl rfl)
      | cons c rest =>
        by_cases hc : c = ')' ∨ c = '|'
        · simp only [List.cons_append, parseCatRest, if_pos hc,
            Option.some.injEq, Prod.mk.injEq] at h ⊢
          obtain ⟨hr, hrem⟩ := h
          subst hr
          rw [← hrem]
          simp
        · simp only [List.cons_append, parseCatRest, if_neg hc] at h ⊢
          cases hpr : parseRep f (c :: rest) with
          | none => rw [hpr] at h; exact absurd h (by simp)
          | some v0 =>
            obtain ⟨r0, rest0⟩ := v0
            rw [hpr] at h
            have hok0 : extOk rest0 t := by
              by_cases hr0 : rest0 = []
              · subst hr0
                obtain ⟨_, hrem⟩ := parseCatRest_nil_inv f (Regex.cat acc r0) r rem h
                subst hrem
                exact hok
              · exact Or.inl hr0
            have hext := ihR _ _ _ _ hpr hok0
            rw [List.cons_append] at hext
            rw [hext]
            exact ihCR _ _ _ _ _ h hok
    · -- parseRep
      simp only [parseRep] at h ⊢
      cases hpa : parseAtom f cs with
      | none => rw [hpa] at h; exact absurd h (by simp)
      | some v0 =>
        obtain ⟨r0, rest0⟩ := v0
        rw [hpa] at h
        cases rest0 with
        | nil =>
          simp only [Option.some.injEq, Prod.mk.injEq] at h
          obtain ⟨hr, hrem⟩ := h
          subst hr
          have hrem' : rem = [] := hrem.symm
          subst hrem'
          have hok0 : extOk ([] : List Char) t := hok
          rw [ihAt _ _ _ _ hpa hok0]
          simp only [List.nil_append]
          rcases hstop [] t rfl hok with ht | ht
          · subst ht
            rfl
          · cases t with
            | nil => simp at ht
            | cons c t' =>
              have hc : c = ')' := by simpa using ht
              subst hc
              simp
        | cons d rest2 =>
          have hext := ihAt _ _ _ t hpa (Or.inl (by simp))
          rw [List.cons_append] at hext
          rw [hext]
          by_cases hd1 : d = '*'
          · simp only [if_pos hd1, Option.some.injEq, Prod.mk.injEq] at h ⊢
            obtain ⟨hr, hrem⟩ := h
            subst hr
            rw [← hrem]
            simp
          · by_cases hd2 : d = '+'
            · simp only [if_neg hd1, if_pos hd2, Option.some.injEq, Prod.mk.injEq] at h ⊢
              obtain ⟨hr, hrem⟩ := h
              subst hr
              rw [← hrem]
              simp
            · by_cases hd3 : d = '?'
              · simp only [if_neg hd1, if_neg hd2, if_pos hd3,
                  Option.some.injEq, Prod.mk.injEq] at h ⊢
                obtain ⟨hr, hrem⟩ := h
                subst hr
                rw [← hrem]
                simp
              · simp only [if_neg hd1, if_neg hd2, if_neg hd3,
                  Option.some.injEq, Prod.mk.injEq] at h ⊢
                obtain ⟨hr, hrem⟩ := h
                subst hr
                rw [← hrem]
                simp
    · -- parseAtom
      cases cs with
      | nil => simp [parseAtom] at h
      | cons c rest =>
        by_cases hc : c = '('
        · simp only [List.cons_append, parseAtom, if_pos hc] at h ⊢
          cases hpa : parseAlt f rest with
          | none => rw [hpa] at h; exact absurd h (by simp)
          | some v0 =>
            obtain ⟨r0, rem0⟩ := v0
            rw [hpa] at h
            cases rem0 with
            | nil => exact absurd h (by simp)
            | cons d rest2 =>
              have hext := ihA _ _ _ t hpa (Or.inl (by simp))
              rw [List.cons_append] at hext
              rw [hext]
              by_cases hd : d = ')'
              · simp only [if_pos hd, Option.some.injEq, Prod.mk.injEq] at h ⊢
                obtain ⟨hr, hrem⟩ := h
                subst hr
                rw [← hrem]
                simp
              · simp only [if_neg hd] at h
                exact absurd h (by simp)
        · by_cases hc2 : c = '.'
          · simp only [List.cons_append, parseAtom, if_neg hc, if_pos hc2,
              Option.some.injEq, Prod.mk.injEq] at h ⊢
            obtain ⟨hr, hrem⟩ := h
            subst hr
            rw [← hrem]
            simp
          · by_cases hc3 : c = '\\'
            · simp only [List.cons_append, parseAtom, if_neg hc, if_neg hc2,
                if_pos hc3] at h ⊢
              cases rest with
              | nil => exact absurd h (by simp)
              | cons d rest2 =>
                by_cases hd : d.isAlphanum
                · simp only [if_pos hd] at h
                  exact absurd h (by simp)
                · simp only [List.cons_append, if_neg hd,
                    Option.some.injEq, Prod.mk.injEq] at h ⊢
                  obtain ⟨hr, hrem⟩ := h
                  subst hr
                  rw [← hrem]
                  simp
            · by_cases hm : isMeta c = true
              · simp only [parseAtom, List.cons_append, if_neg hc, if_neg hc2,
                  if_neg hc3, if_pos hm] at h
                exact absurd h (by simp)
              · simp only [parseAtom, List.cons_append, if_neg hc, if_neg hc2,
                  if_neg hc3, if_neg hm, Option.some.injEq, Prod.mk.injEq] at h ⊢
                obtain ⟨hr, hrem⟩ := h
                subst hr
                rw [← hrem]
                simp

/-! ## C5 — the shape of the composite pattern and its parse -/

/-- The composite pattern after the first wrapped line: `|(l)` chunks. -/
def chunksTail : List (List Char) → List Char
  | [] => []
  | l :: ls => '|' :: '(' :: (l ++ ')' :: chunksTail ls)

/-- The whole composite pattern `(l1)|(l2)|...|(lk)`. -/
def chunksAll : List (List Char) → List Char
  | [] => []
  | l :: ls => '(' :: (l ++ ')' :: chunksTail ls)

theorem chunksTail_shape (ls : List (List Char)) :
    chunksTail ls = [] ∨ (chunksTail ls).head? = some '|' := by
  cases ls with
  | nil => exact Or.inl rfl
  | cons l ls => exact Or.inr rfl

theorem parseAltRest_bar (f : Nat) (acc : Regex) (cs : List Char) :
    parseAltRest (f + 1) acc ('|' :: cs) =
      match parseCat f cs with
      | some (r, rest2) => parseAltRest f (Regex.alt acc r) rest2
      | none => none := by
  simp [parseAltRest]

theorem parseCatRest_go (f : Nat) (acc : Regex) (c : Char) (cs : List Char)
    (hc : ¬(c = ')' ∨ c = '|')) :
    parseCatRest (f + 1) acc (c :: cs) =
      match parseRep f (c :: cs) with
      | some (r, rest2) => parseCatRest f (Regex.cat acc r) rest2
      | none => none := by
  simp [parseCatRest, hc]

/-- Parsing one wrapped group `(l)` at the concatenation level, when the
rest of the input starts with `|` or `)` or is empty. -/
theorem parseChunk (g f : Nat) (acc : Regex) (l t : List Char) (r : Regex)
    (hp : parseAlt f l = some (r, []))
    (hg : f + 3 ≤ g)
    (ht : t = [] ∨ t.head? = some '|' ∨ t.head? = some ')') :
    parseCatRest g acc ('(' :: (l ++ ')' :: t)) = some (Regex.cat acc r, t) := by
  obtain ⟨g1, rfl⟩ : ∃ g1, g = g1 + 1 := ⟨g - 1, by omega⟩
  obtain ⟨g2, rfl⟩ : ∃ g2, g1 = g2 + 1 := ⟨g1 - 1, by omega⟩
  obtain ⟨g3, rfl⟩ : ∃ g3, g2 = g3 + 1 := ⟨g2 - 1, by omega⟩
  have halt : parseAlt g3 (l ++ ')' :: t) = some (r, ')' :: t) := by
    have hext : parseAlt f (l ++ ')' :: t) = some (r, [] ++ ')' :: t) :=
      (parseExt f).1 l r [] (')' :: t) hp (Or.inr (Or.inr rfl))
    rw [List.nil_append] at hext
    exact parseAlt_mono_le (by omega) hext
  have hatom : parseAtom (g3 + 1) ('(' :: (l ++ ')' :: t)) = some (r, t) := by
    simp only [parseAtom, if_pos rfl]
    rw [halt]
    simp
  have hrep : parseRep (g3 + 2) ('(' :: (l ++ ')' :: t)) = some (r, t) := by
    simp only [parseRep]
    rw [hatom]
    rcases ht with rfl | ht | ht
    · simp
    · cases t with
      | nil => simp at ht
      | cons c t' =>
        have hc : c = '|' := by simpa using ht
        subst hc
        simp
    · cases t with
      | nil => simp at ht
      | cons c t' =>
        have hc : c = ')' := by simpa using ht
        subst hc
        simp
  have hnotstop : ¬(('(' : Char) = ')' ∨ ('(' : Char) = '|') := by decide
  rw [parseCatRest_go _ _ _ _ hnotstop, hrep]
  show parseCatRest (g3 + 2) (Regex.cat acc r) t = some (Regex.cat acc r, t)
  rcases ht with rfl | ht | ht
  · exact parseCatRest_nil (g3 + 2) _ (by omega)
  · cases t with
    | nil => simp at ht
    | cons c t' =>
      have hc : c = '|' := by simpa using ht
      subst hc
      exact parseCatRest_stop (g3 + 2) _ _ _ (by omega) (Or.inr rfl)
  · cases t with
    | nil => simp at ht
    | cons c t' =>
      have hc : c = ')' := by simpa using ht
      subst hc
      exact parseCatRest_stop (g3 + 2) _ _ _ (by omega) (Or.inl rfl)

/-- Parsing the remaining `|(l)` chunks folds the alternatives onto the
accumulator. -/
theorem parseAltChunks (ps : List (List Char × Regex)) :
    ∀ (g f : Nat) (racc : Regex),
    (∀ p ∈ ps, parseAlt f p.1 = some (p.2, [])) →
    f + 6 + ps.length ≤ g →
    parseAltRest g racc (chunksTail (ps.map Prod.fst)) =
      some (ps.foldl (fun a p => Regex.alt a (Regex.cat Regex.eps p.2)) racc, []) := by
  induction ps with
  | nil =>
    intro g f racc _ hg
    simpa [chunksTail] using parseAltRest_nil g racc (by omega)
  | cons p ps ih =>
    intro g f racc hp hg
    obtain ⟨l, r⟩ := p
    obtain ⟨g1, rfl⟩ : ∃ g1, g = g1 + 1 := ⟨g - 1, by omega⟩
    simp only [List.map_cons, chunksTail]
    rw [parseAltRest_bar]
    obtain ⟨g2, rfl⟩ : ∃ g2, g1 = g2 + 1 := ⟨g1 - 1, by omega⟩
    have hcat : parseCat (g2 + 1) ('(' :: (l ++ ')' :: chunksTail (ps.map Prod.fst))) =
        some (Regex.cat Regex.eps r, chunksTail (ps.map Prod.fst)) := by
      simp only [parseCat]
      apply parseChunk g2 f Regex.eps l _ r (hp (l, r) (List.mem_cons_self _ _))
      · simp only [List.length_cons] at hg
        omega
      · rcases chunksTail_shape (ps.map Prod.fst) with h | h
        · exact Or.inl h
        · exact Or.inr (Or.inl h)
    rw [hcat]
    show parseAltRest (g2 + 1) (Regex.alt racc (Regex.cat Regex.eps r))
        (chunksTail (ps.map Prod.fst)) = _
    rw [ih (g2 + 1) f (Regex.alt racc (Regex.cat Regex.eps r))
      (fun q hq => hp q (List.mem_cons_of_mem _ hq))
      (by simp only [List.length_cons] at hg; omega)]
    rw [List.foldl_cons]

/-- Parsing the whole composite `(l1)|...|(lk)` yields the left fold of the
alternatives. -/
theorem parseAltAll (l0 : List Char) (r0 : Regex) (ps : List (List Char × Regex))
    (F f : Nat)
    (hp0 : parseAlt f l0 = some (r0, []))
    (hp : ∀ p ∈ ps, parseAlt f p.1 = some (p.2, []))
    (hF : f + 8 + ps.length ≤ F) :
    parseAlt F (chunksAll (l0 :: ps.map Prod.fst)) =
      some (ps.foldl (fun a p => Regex.alt a (Regex.cat Regex.eps p.2))
              (Regex.cat Regex.eps r0), []) := by
  obtain ⟨F1, rfl⟩ : ∃ F1, F = F1 + 1 := ⟨F - 1, by omega⟩
  simp only [chunksAll, parseAlt]
  obtain ⟨F2, rfl⟩ : ∃ F2, F1 = F2 + 1 := ⟨F1 - 1, by omega⟩
  have hcat : parseCat (F2 + 1) ('(' :: (l0 ++ ')' :: chunksTail (ps.map Prod.fst))) =
      some (Regex.cat Regex.eps r0, chunksTail (ps.map Prod.fst)) := by
    simp only [parseCat]
    apply parseChunk F2 f Regex.eps l0 _ r0 hp0 (by omega)
    rcases chunksTail_shape (ps.map Prod.fst) with h | h
    · exact Or.inl h
    · exact Or.inr (Or.inl h)
  rw [hcat]
  exact parseAltChunks ps (F2 + 1) f (Regex.cat Regex.eps r0) hp (by omega)

/-! ## C5 — semantic lemmas for alternations -/

theorem prefixMatch_alt (a b : Regex) (s : List Char) :
    prefixMatch (.alt a b) s = (prefixMatch a s || prefixMatch b s) := by
  induction s generalizing a b with
  | nil => simp [prefixMatch, nullable]
  | cons c cs ih =>
    simp only [prefixMatch, nullable, deriv, ih]
    cases nullable a <;> cases nullable b <;>
      simp [Bool.or_assoc, Bool.or_comm, Bool.or_left_comm]

theorem matchString_alt (a b : Regex) (s : List Char) :
    matchString (.alt a b) s = (matchString a s || matchString b s) := by
  induction s with
  | nil => simp [matchString, nullable]
  | cons c cs ih =>
    simp only [matchString, prefixMatch_alt, ih]
    cases prefixMatch a (c :: cs) <;> cases prefixMatch b (c :: cs) <;>
      simp [Bool.or_assoc, Bool.or_comm, Bool.or_left_comm]

theorem prefixMatch_cat_void (r : Regex) (s : List Char) :
    prefixMatch (.cat .void r) s = false := by
  induction s with
  | nil => simp [prefixMatch, nullable]
  | cons c cs ih => simpa [prefixMatch, nullable, deriv] using ih

theorem prefixMatch_cat_eps (r : Regex) (s : List Char) :
    prefixMatch (.cat .eps r) s = prefixMatch r s := by
  cases s with
  | nil => simp [prefixMatch, nullable]
  | cons c cs =>
    simp [prefixMatch, nullable, deriv, prefixMatch_alt, prefixMatch_cat_void]

theorem matchString_cat_eps (r : Regex) (s : List Char) :
    matchString (.cat .eps r) s = matchString r s := by
  induction s with
  | nil => simp [matchString, nullable]
  | cons c cs ih => simp [matchString, prefixMatch_cat_eps, ih]

theorem matchString_foldlAlt (rs : List Regex) (acc : Regex) (s : List Char) :
    matchString (rs.foldl (fun a r => Regex.alt a (Regex.cat Regex.eps r)) acc) s =
      (matchString acc s || rs.any (fun r => matchString r s)) := by
  induction rs generalizing acc with
  | nil => simp
  | cons r rs ih =>
    simp only [List.foldl_cons, List.any_cons]
    rw [ih, matchString_alt, matchString_cat_eps]
    cases matchString acc s <;> simp

/-! ## C5 — escape normalization distributes over the composite shape -/

theorem shellReplace_cons_ne (c : Char) (cs : List Char) (hc : c ≠ '\\') :
    shellReplace (c :: cs) = c :: shellReplace cs := by
  cases cs with
  | nil => rfl
  | cons d cs' => simp [shellReplace, hc]

theorem shellReplace_append_aux (n : Nat) :
    ∀ (xs ys : List Char), xs.length ≤ n →
    ys.head? ≠ some '\\' → ys.head? ≠ some '"' →
    shellReplace (xs ++ ys) = shellReplace xs ++ shellReplace ys := by
  induction n with
  | zero =>
    intro xs ys hlen _ _
    have : xs = [] := List.eq_nil_of_length_eq_zero (by omega)
    subst this
    simp [shellReplace]
  | succ n ih =>
    intro xs ys hlen hy1 hy2
    rcases xs with _ | ⟨c, _ | ⟨c2, rest⟩⟩
    · simp [shellReplace]
    · by_cases hc : c = '\\'
      · subst hc
        cases ys with
        | nil => simp [shellReplace]
        | cons d ys' =>
          have hd1 : d ≠ '\\' := by simpa using hy1
          have hd2 : d ≠ '"' := by simpa using hy2
          show shellReplace ('\\' :: d :: ys') = shellReplace ['\\'] ++ shellReplace (d :: ys')
          simp [shellReplace, hd1, hd2]
      · rw [List.cons_append, List.nil_append, shellReplace_cons_ne c ys hc]
        rfl
    · by_cases hc : c = '\\'
      · subst hc
        by_cases h2 : c2 = '\\'
        · subst h2
          show shellReplace ('\\' :: '\\' :: (rest ++ ys)) =
            shellReplace ('\\' :: '\\' :: rest) ++ shellReplace ys
          simp only [shellReplace, if_pos rfl]
          rw [ih rest ys (by simp at hlen; omega) hy1 hy2]
          rfl
        · by_cases h3 : c2 = '"'
          · subst h3
            show shellReplace ('\\' :: '"' :: (rest ++ ys)) =
              shellReplace ('\\' :: '"' :: rest) ++ shellReplace ys
            have hq : ('"' : Char) ≠ '\\' := by decide
            simp only [shellReplace, if_pos rfl, if_neg hq]
            rw [ih rest ys (by simp at hlen; omega) hy1 hy2]
            rfl
          · show shellReplace ('\\' :: c2 :: (rest ++ ys)) =
              shellReplace ('\\' :: c2 :: rest) ++ shellReplace ys
            simp only [shellReplace, if_pos rfl, if_neg h2, if_neg h3]
            rw [← List.cons_append,
              ih (c2 :: rest) ys (by simp at hlen ⊢; omega) hy1 hy2]
            rfl
      · rw [List.cons_append, shellReplace_cons_ne c _ hc, shellReplace_cons_ne c _ hc,
          ih (c2 :: rest) ys (by simp at hlen ⊢; omega) hy1 hy2]
        rfl

theorem shellReplace_append (xs ys : List Char)
    (hy1 : ys.head? ≠ some '\\') (hy2 : ys.head? ≠ some '"') :
    shellReplace (xs ++ ys) = shellReplace xs ++ shellReplace ys :=
  shellReplace_append_aux xs.length xs ys le_rfl hy1 hy2

theorem shellReplace_chunksTail (ls : List (List Char)) :
    shellReplace (chunksTail ls) = chunksTail (ls.map shellReplace) := by
  induction ls with
  | nil => rfl
  | cons l ls ih =>
    show shellReplace ('|' :: '(' :: (l ++ ')' :: chunksTail ls)) = _
    rw [shellReplace_cons_ne '|' _ (by decide), shellReplace_cons_ne '(' _ (by decide)]
    rw [shellReplace_append l (')' :: chunksTail ls) (by simp) (by simp)]
    rw [shellReplace_cons_ne ')' _ (by decide), ih]
    rfl

theorem shellReplace_chunksAll (ls : List (List Char)) :
    shellReplace (chunksAll ls) = chunksAll (ls.map shellReplace) := by
  cases ls with
  | nil => rfl
  | cons l ls =>
    show shellReplace ('(' :: (l ++ ')' :: chunksTail ls)) = _
    rw [shellReplace_cons_ne '(' _ (by decide)]
    rw [shellReplace_append l (')' :: chunksTail ls) (by simp) (by simp)]
    rw [shellReplace_cons_ne ')' _ (by decide), shellReplace_chunksTail]
    rfl

/-! ## C5 — the raw composite equals the chunk shape -/

theorem foldl_appendPattern (ls : List (List Char)) :
    ∀ acc : List Char, acc ≠ [] →
      ls.foldl appendPattern acc = acc ++ chunksTail ls := by
  induction ls with
  | nil =>
    intro acc _
    simp [chunksTail]
  | cons l ls ih =>
    intro acc hacc
    rw [List.foldl_cons]
    have hstep : appendPattern acc l = acc ++ '|' :: '(' :: (l ++ [')']) := by
      unfold appendPattern
      rw [if_pos (by simpa [List.length_pos] using hacc)]
      simp
    rw [hstep, ih _ (by simp)]
    show _ = acc ++ ('|' :: '(' :: (l ++ ')' :: chunksTail ls))
    simp

theorem buildRaw_cons (l : List Char) (ls : List (List Char)) :
    buildRaw (l :: ls) = chunksAll (l :: ls) := by
  unfold buildRaw
  rw [List.foldl_cons]
  have h0 : appendPattern [] l = '(' :: (l ++ [')']) := by
    simp [appendPattern]
  rw [h0, foldl_appendPattern _ _ (by simp)]
  show _ = '(' :: (l ++ ')' :: chunksTail ls)
  simp

/-! ## C5 — length bookkeeping and compile inversion -/

theorem chunksTail_length (ls : List (List Char)) :
    (chunksTail ls).length = (ls.map List.length).sum + 3 * ls.length := by
  induction ls with
  | nil => rfl
  | cons l ls ih =>
    show ('|' :: '(' :: (l ++ ')' :: chunksTail ls)).length = _
    simp [ih]
    omega

theorem chunksAll_cons_length (l : List Char) (ls : List (List Char)) :
    (chunksAll (l :: ls)).length + 1 =
      (((l :: ls)).map List.length).sum + 3 * (l :: ls).length := by
  show ('(' :: (l ++ ')' :: chunksTail ls)).length + 1 = _
  simp [chunksTail_length]
  omega

theorem compile_eq_some (p : List Char) (r : Regex) (h : compile p = some r) :
    parseAlt (4 * p.length + 8) p = some (r, []) := by
  unfold compile at h
  cases hp : parseAlt (4 * p.length + 8) p with
  | none => rw [hp] at h; exact absurd h (by simp)
  | some v =>
    obtain ⟨r0, rem⟩ := v
    rw [hp] at h
    cases rem with
    | nil =>
      simp only [Option.some.injEq] at h
      rw [← h]
    | cons c cs => exact absurd h (by simp)

/-! ## C5 — the composite matcher is the alternation of its lines -/

/-- C5: for a stage with at least one usable pattern line, if every
escape-normalized line individually compiles, then the composite also
compiles, and the composite matcher matches a string exactly when at least
one of the individual (normalized) line patterns matches it. -/
theorem c5_composite_alternation (sources : List (List Char)) (rs : List Regex)
    (hK : usableLines sources ≠ [])
    (hcomp : List.Forall₂ (fun l r => compile (shellReplace l) = some r)
      (usableLines sources) rs) :
    ∃ rc, loadRegexesModel sources = some rc ∧
      ∀ s, (matchString rc s = true ↔ ∃ r ∈ rs, matchString r s = true) := by
  rcases hlines : usableLines sources with _ | ⟨l0, ls⟩
  · exact absurd hlines hK
  rw [hlines] at hcomp
  cases hcomp with
  | cons hp0 hrest =>
    rename_i r0 rs'
    -- Normalized lines and the zip of tail lines with their regexes.
    have hlen : ls.length = rs'.length := hrest.length_eq
    have hnlen : (ls.map shellReplace).length = rs'.length := by simpa using hlen
    have hfst : ((ls.map shellReplace).zip rs').map Prod.fst = ls.map shellReplace :=
      List.map_fst_zip _ _ (le_of_eq hnlen)
    have hsnd : ((ls.map shellReplace).zip rs').map Prod.snd = rs' :=
      List.map_snd_zip _ _ (ge_of_eq hnlen)
    have hmem : ∀ p ∈ (ls.map shellReplace).zip rs', compile p.1 = some p.2 := by
      have hmap : List.Forall₂ (fun nl r => compile nl = some r)
          (ls.map shellReplace) rs' := by
        rw [List.forall₂_map_left_iff]
        exact hrest
      intro p hp
      obtain ⟨a, b⟩ := p
      exact (List.forall₂_iff_zip.mp hmap).2 hp
    -- Length bookkeeping for the fuel.
    have hL := chunksAll_cons_length (shellReplace l0) (ls.map shellReplace)
    simp only [List.map_cons, List.sum_cons, List.length_cons] at hL
    -- Pointwise parses at the common fuel.
    have hps_len : ((ls.map shellReplace).zip rs').length = (ls.map shellReplace).length := by
      rw [List.length_zip, hnlen]
      simp
    have hp0' : parseAlt
        (4 * (chunksAll (shellReplace l0 :: ls.map shellReplace)).length + 1 -
          (shellReplace l0 :: ls.map shellReplace).length)
        (shellReplace l0) = some (r0, []) := by
      apply parseAlt_mono_le ?_ (compile_eq_some _ _ hp0)
      simp only [List.length_cons]
      have hnn : 0 ≤ ((ls.map shellReplace).map List.length).sum := Nat.zero_le _
      omega
    have hpi : ∀ p ∈ (ls.map shellReplace).zip rs',
        parseAlt
          (4 * (chunksAll (shellReplace l0 :: ls.map shellReplace)).length + 1 -
            (shellReplace l0 :: ls.map shellReplace).length)
          p.1 = some (p.2, []) := by
      intro p hp
      obtain ⟨a, b⟩ := p
      have h1 : compile a = some b := hmem _ hp
      have h2 : a ∈ ls.map shellReplace := (List.mem_zip hp).1
      have h3 : a.length ≤ ((ls.map shellReplace).map List.length).sum :=
        List.le_sum_of_mem (List.mem_map_of_mem _ h2)
      apply parseAlt_mono_le ?_ (compile_eq_some _ _ h1)
      simp only [List.length_cons]
      omega
    -- Parse the whole composite.
    have hparse := parseAltAll (shellReplace l0) r0 ((ls.map shellReplace).zip rs')
      (4 * (chunksAll (shellReplace l0 :: ls.map shellReplace)).length + 8)
      (4 * (chunksAll (shellReplace l0 :: ls.map shellReplace)).length + 1 -
        (shellReplace l0 :: ls.map shellReplace).length)
      hp0' hpi
      (by
        simp only [List.length_cons] at hL ⊢
        rw [hps_len]
        simp only [List.length_map]
        have hnn : 0 ≤ ((ls.map shellReplace).map List.length).sum := Nat.zero_le _
        omega)
    rw [hfst] at hparse
    have hcompile : compile (chunksAll (shellReplace l0 :: ls.map shellReplace)) =
        some (((ls.map shellReplace).zip rs').foldl
          (fun a p => Regex.alt a (Regex.cat Regex.eps p.2)) (Regex.cat Regex.eps r0)) := by
      unfold compile
      rw [hparse]
    refine ⟨((ls.map shellReplace).zip rs').foldl
      (fun a p => Regex.alt a (Regex.cat Regex.eps p.2)) (Regex.cat Regex.eps r0), ?_, ?_⟩
    · show loadRegexesModel sources = _
      unfold loadRegexesModel
      rw [hlines, buildRaw_cons, shellReplace_chunksAll]
      simpa using hcompile
    · intro s
      have hsem : matchString
          (((ls.map shellReplace).zip rs').foldl
            (fun a p => Regex.alt a (Regex.cat Regex.eps p.2)) (Regex.cat Regex.eps r0)) s =
          (matchString r0 s || rs'.any (fun r => matchString r s)) := by
        rw [show ((ls.map shellReplace).zip rs').foldl
              (fun a p => Regex.alt a (Regex.cat Regex.eps p.2)) (Regex.cat Regex.eps r0) =
            (((ls.map shellReplace).zip rs').map Prod.snd).foldl
              (fun a r => Regex.alt a (Regex.cat Regex.eps r)) (Regex.cat Regex.eps r0)
          from (List.foldl_map Prod.snd
            (fun a r => Regex.alt a (Regex.cat Regex.eps r))
            ((ls.map shellReplace).zip rs') (Regex.cat Regex.eps r0)).symm]
        rw [hsnd, matchString_foldlAlt, matchString_cat_eps]
      rw [hsem]
      simp only [Bool.or_eq_true, List.any_eq_true, List.mem_cons]
      constructor
      · rintro (h | ⟨r, hr, hm⟩)
        · exact ⟨r0, Or.inl rfl, h⟩
        · exact ⟨r, Or.inr hr, hm⟩
      · rintro ⟨r, hr | hr, hm⟩
        · subst hr
          exact Or.inl hm
        · exact Or.inr ⟨r, hr, hm⟩

/-- Witness for C5: a two-line source alternates its two lines — the
composite matches a string containing either `key` or `pwd` and rejects one
containing neither. -/
theorem c5_witness :
    ∃ rc, loadRegexesModel ["key\n#comment\npwd".data] = some rc ∧
      ∀ s, (matchString rc s = true ↔
        ∃ r ∈ [Regex.cat (Regex.cat (Regex.cat Regex.eps (Regex.chr 'k'))
                  (Regex.chr 'e')) (Regex.chr 'y'),
               Regex.cat (Regex.cat (Regex.cat Regex.eps (Regex.chr 'p'))
                  (Regex.chr 'w')) (Regex.chr 'd')],
          matchString r s = true) :=
  c5_composite_alternation ["key\n#comment\npwd".data]
    [Regex.cat (Regex.cat (Regex.cat Regex.eps (Regex.chr 'k'))
        (Regex.chr 'e')) (Regex.chr 'y'),
     Regex.cat (Regex.cat (Regex.cat Regex.eps (Regex.chr 'p'))
        (Regex.chr 'w')) (Regex.chr 'd')]
    (by decide)
    (by
      refine List.Forall₂.cons (by decide) (List.Forall₂.cons (by decide) List.Forall₂.nil))

end SecretsInSource
